import Mathlib

/-!
Verification development for the butterfly stateful-fuzzing library.

The definitions below are shallow embeddings of the Rust sources:
* `src/src/observer.rs`  — the state-graph observer (`StateGraph`, `StateObserver`),
* `src/src/mutators/*.rs` — the packet-level byte mutations and the
  packet-sequence mutators,
* `src/src/scheduler.rs` — the mutation scheduler,
* `src/src/input.rs`     — the pcap seed loader.

Machine integers are modelled as `ℕ` with explicit `% 2 ^ 32` where the code
casts to `u32`.  Randomness (`Rand::below`) is modelled by a pre-drawn list of
raw values carried in the ambient state, together with the target's `max_size`,
mirroring `S : HasRand + HasMaxSize`.  Definitions whose name matches the Rust
source are direct translations of that source.  Definitions prefixed with
`spec` restate sentences of the natural-language specification and are only
used on the specification side of refinement theorems.
-/

set_option linter.unusedSectionVars false

namespace Butterfly


/-- Value `u32::MAX + 1`; ids are stored as `u32` in the Rust code. -/
def U32 : ℕ := 2 ^ 32

/-- Model of `observer.rs`: `fn pack_transition(from: u32, to: u32) -> u64`
`(from as u64) << 32 | (to as u64)`.  For `to < 2^32` the bit-or is addition. -/
def pack_transition (a b : ℕ) : ℕ := a * U32 + b

/-- Model of `observer.rs`: `fn unpack_transition(transition: u64) -> (u32, u32)`. -/
def unpack_transition (v : ℕ) : ℕ × ℕ := (v / U32, v % U32)

/-- Model of `observer.rs`: `struct StateGraph<PS>`.  The `BTreeMap<PS, u32>` `nodes`
is modelled as the list of its keys in first-seen (insertion) order; the id
stored for the `k`-th inserted key is `k % 2^32` (`nodes.len() as u32` at
insertion time), so the map needs no separate value column.  The
`BTreeSet<u64>` `edges` is a `Finset ℕ`. -/
structure StateGraph (PS : Type) where
  nodes : List PS
  edges : Finset ℕ
  last_node : Option ℕ
  new_transitions : Bool

variable {PS : Type} [DecidableEq PS]

/-- Model of `StateGraph::new()`. -/
def StateGraph.new : StateGraph PS :=
  { nodes := [], edges := ∅, last_node := none, new_transitions := false }

/-- Model of `StateGraph::reset()` — clears only the transient fields. -/
def StateGraph.reset (g : StateGraph PS) : StateGraph PS :=
  { g with last_node := none, new_transitions := false }

/-- Model of `StateGraph::add_node()` — look up the state; if absent, assign the next
dense id `nodes.len() as u32` and insert.  (The `assert!` in the source always
holds: the key was just checked to be absent.)  Returns the id and the updated
graph. -/
def StateGraph.add_node (g : StateGraph PS) (s : PS) : ℕ × StateGraph PS :=
  if s ∈ g.nodes then
    (g.nodes.indexOf s % U32, g)
  else
    (g.nodes.length % U32, { g with nodes := g.nodes ++ [s] })

/-- Model of `StateGraph::add_edge()` — if a previous node exists and differs from
`id`, insert the packed transition; `new_transitions |=` whether the inserted
value was new.  Then `last_node = Some(id)`. -/
def StateGraph.add_edge (g : StateGraph PS) (id : ℕ) : StateGraph PS :=
  let g1 :=
    match g.last_node with
    | some old_id =>
      if old_id ≠ id then
        { g with
          edges := insert (pack_transition old_id id) g.edges,
          new_transitions :=
            g.new_transitions || decide (pack_transition old_id id ∉ g.edges) }
      else g
    | none => g
  { g1 with last_node := some id }

/-- Model of `StateObserver::record()` — `add_node` then `add_edge`. -/
def record (g : StateGraph PS) (s : PS) : StateGraph PS :=
  let p := g.add_node s
  p.2.add_edge p.1

/-- Model of `StateObserver::info()` — `(nodes.len(), edges.len())`. -/
def info (g : StateGraph PS) : ℕ × ℕ := (g.nodes.length, g.edges.card)

/-- Model of `StateObserver::had_new_transitions()`. -/
def had_new_transitions (g : StateGraph PS) : Bool := g.new_transitions

/-- Model of `Observer::pre_exec` — `graph.reset()`. -/
def pre_exec (g : StateGraph PS) : StateGraph PS := g.reset

/-- All `record` calls of one execution, in order. -/
def runRecords (g : StateGraph PS) (e : List PS) : StateGraph PS :=
  e.foldl record g

/-- One execution: `pre_exec` followed by its `record` calls. -/
def runExec (g : StateGraph PS) (e : List PS) : StateGraph PS :=
  runRecords (pre_exec g) e

/-- A whole campaign: every execution is preceded by `pre_exec`. -/
def runCampaign (execs : List (List PS)) : StateGraph PS :=
  execs.foldl runExec StateGraph.new

/-! Specification-side counting functions, restating the claim's words. -/

/-- Spec: the ordered pairs observed consecutively within one execution,
self-pairs excluded. -/
def nonSelfPairs (e : List PS) : List (PS × PS) :=
  (e.zip e.tail).filter (fun pr => pr.1 ≠ pr.2)

/-- Spec: all states ever passed to `record`. -/
def statesOf (execs : List (List PS)) : List PS := execs.flatten

/-- Spec: all non-self consecutive pairs, kept per execution. -/
def pairsOf (execs : List (List PS)) : List (PS × PS) :=
  (execs.map nonSelfPairs).flatten

/-- Spec: the number of distinct states ever recorded. -/
def specNodeCount (execs : List (List PS)) : ℕ :=
  (statesOf execs).toFinset.card

/-- Spec: the number of distinct ordered non-self pairs observed consecutively
within a single execution. -/
def specEdgeCount (execs : List (List PS)) : ℕ :=
  (pairsOf execs).toFinset.card

/-- Spec: one `record g s` call records a pair that "was not already present
in the edge set at the moment of that record call" — there is a previous node,
it differs from the id of `s`, and the packed pair is absent from the current
edge set. -/
def isNovelRecord (g : StateGraph PS) (s : PS) : Bool :=
  match g.last_node with
  | some old_id =>
    decide (old_id ≠ (g.add_node s).1) &&
      decide (pack_transition old_id (g.add_node s).1 ∉ g.edges)
  | none => false

/-- Spec: some `record` call of the execution `e` (run from `g`) recorded a
pair that was not already in the edge set at that moment. -/
def specNewPairRecorded (g : StateGraph PS) : List PS → Bool
  | [] => false
  | s :: rest => isNovelRecord g s || specNewPairRecorded (record g s) rest

/-! Invariant machinery for the node/edge counting claim.  The ghost data
tracks the set of recorded states `sts`, the set of recorded non-self
consecutive pairs `prs`, and the previously recorded state of the current
execution `lastS`. -/

/-- The packed edge value the code stores for a pair of states, given the
current first-seen key list `L`. -/
def packAt (L : List PS) (pr : PS × PS) : ℕ :=
  pack_transition (L.indexOf pr.1 % U32) (L.indexOf pr.2 % U32)

structure GInv (total sts : Finset PS) (prs : Finset (PS × PS))
    (lastS : Option PS) (g : StateGraph PS) : Prop where
  nodup : g.nodes.Nodup
  mem_iff : ∀ x, x ∈ g.nodes ↔ x ∈ sts
  sub_total : sts ⊆ total
  card_le : total.card ≤ U32
  pairs_mem : ∀ pr ∈ prs, pr.1 ∈ g.nodes ∧ pr.2 ∈ g.nodes ∧ pr.1 ≠ pr.2
  edges_eq : g.edges = prs.image (packAt g.nodes)
  last_some : ∀ p, lastS = some p →
    p ∈ g.nodes ∧ g.last_node = some (g.nodes.indexOf p % U32)
  last_none : lastS = none → g.last_node = none

/-- Pair bookkeeping for one `record` call: if there is a previous state and it
differs from the new one, the pair joins the recorded-pair set. -/
def stepPairs (lastS : Option PS) (s : PS) (prs : Finset (PS × PS)) :
    Finset (PS × PS) :=
  match lastS with
  | some p => if p ≠ s then insert (p, s) prs else prs
  | none => prs

/-- The non-self consecutive pairs an execution suffix `e` contributes, given
the previously recorded state of the current execution (if any). -/
def pairsFromOpt (lastS : Option PS) (e : List PS) : List (PS × PS) :=
  match lastS with
  | some p => nonSelfPairs (p :: e)
  | none => nonSelfPairs e

/-- The previously recorded state after also running `e`. -/
def lastOfOpt (lastS : Option PS) (e : List PS) : Option PS :=
  match e.getLast? with
  | some x => some x
  | none => lastS

/-- The previously recorded state after also running the executions `execs`,
each preceded by a `pre_exec`. -/
def campLast (lastS : Option PS) (execs : List (List PS)) : Option PS :=
  execs.foldl (fun _ e => lastOfOpt none e) lastS

/-! DOT rendering (`StateGraph::print_dot`), modelled as the list of printed
lines.  `BTreeSet<u64>` iterates in ascending numeric order, which
`Finset.sort (· ≤ ·)` reproduces. -/

/-- The header line `digraph IMPLEMENTED_STATE_MACHINE {`. -/
def dotHeader : String := "digraph IMPLEMENTED_STATE_MACHINE \x7b"

/-- The trailing line `}`. -/
def dotFooter : String := "\x7d"

/-- One printed edge line `  "N" -> "M";`. -/
def edgeLine (pr : ℕ × ℕ) : String :=
  "  \"" ++ toString pr.1 ++ "\" -> \"" ++ toString pr.2 ++ "\";"

/-- Model of `StateGraph::print_dot()` — header, one line per stored edge in ascending
order of the packed `u64` values, footer. -/
def print_dot (g : StateGraph PS) : List String :=
  dotHeader ::
    (g.edges.sort (· ≤ ·)).map (fun v => edgeLine (unpack_transition v))
    ++ [dotFooter]

/-- The id pairs of the printed edge lines, in print order. -/
def dotPairs (g : StateGraph PS) : List (ℕ × ℕ) :=
  (g.edges.sort (· ≤ ·)).map unpack_transition

/-- Lexicographic order on id pairs. -/
def pairLe (a b : ℕ × ℕ) : Prop :=
  a.1 < b.1 ∨ (a.1 = b.1 ∧ a.2 ≤ b.2)

/-- Bounds maintained by every reachable graph: every stored edge value packs
two `u32` ids, and `last_node` holds a `u32` id. -/
def GBound (g : StateGraph PS) : Prop :=
  (∀ v ∈ g.edges, v < U32 * U32) ∧ (∀ i, g.last_node = some i → i < U32)

/-! Mutator model (`src/src/mutators/*.rs`).  The ambient LibAFL state
`S : HasRand + HasMaxSize` is modelled as `MState`: a list of pre-drawn raw
random values (`Rand::below(n)` consumes the head modulo `n`, so quantifying
over all streams covers every PRNG seed) together with `max_size`. -/

inductive MutationResult where
  | mutated
  | skipped
deriving DecidableEq

structure MState where
  rand : List ℕ
  max_size : ℕ
deriving DecidableEq

/-- Model of `state.rand_mut().below(n)`: a value in `[0, n)` (when `n > 0`). -/
def MState.below (st : MState) (n : ℕ) : ℕ × MState :=
  match st.rand with
  | [] => (0, st)
  | x :: rest => (x % n, { st with rand := rest })

/-- Byte buffers of a `BytesInput`. -/
abbrev Bytes := List ℕ

/-- Model of `Vec::resize(n, value)`. -/
def listResize (l : Bytes) (n : ℕ) (v : ℕ) : Bytes :=
  l.take n ++ List.replicate (n - l.length) v

/-- Model of `buf[i..i+seg.len()].copy_from_slice(seg)`; also the effect of
`buf.copy_within(src, i)` once the source slice `seg` has been read out of the
original buffer (`copy_within` is `memmove`, so it reads the pre-write
contents). -/
def writeRange (l : Bytes) (i : ℕ) (seg : Bytes) : Bytes :=
  l.take i ++ seg ++ l.drop (i + seg.length)

/-- Model of `impl HasSpliceMutation for BytesInput`, `splice.rs` lines 67-88:
draw `to` below `self.len()`, `from` below `other.len()`,
`len = other.len() - from`; resize to `to + len` when that exceeds
`self.len()`; copy `other[from..from+len]` into `self[to..to+len]`. -/
def mutate_splice (self other : Bytes) (st : MState) :
    MutationResult × Bytes × MState :=
  if self.length = 0 ∨ other.length = 0 then
    (.skipped, self, st)
  else
    let p1 := st.below self.length
    let p2 := p1.2.below other.length
    let toIdx := p1.1
    let fromIdx := p2.1
    let len := other.length - fromIdx
    let sized :=
      if self.length < toIdx + len then listResize self (toIdx + len) 0
      else self
    (.mutated, writeRange sized toIdx (other.drop fromIdx), p2.2)

/-- Model of `impl HasCrossoverInsertMutation for BytesInput`, `crossover.rs` lines
67-89: draw `from` below `other.len()`, `to` below `self.len()`,
`len = below(other.len() - from) + 1`; resize to `self.len() + len`;
shift `self[to..self_len]` right by `len`; copy `other[from..from+len]`
into `self[to..to+len]`. -/
def mutate_crossover_insert (self other : Bytes) (st : MState) :
    MutationResult × Bytes × MState :=
  if self.length = 0 ∨ other.length = 0 then
    (.skipped, self, st)
  else
    let p1 := st.below other.length
    let p2 := p1.2.below self.length
    let p3 := p2.2.below (other.length - p1.1)
    let fromIdx := p1.1
    let toIdx := p2.1
    let len := p3.1 + 1
    let grown := listResize self (self.length + len) 0
    let shifted := writeRange grown (toIdx + len) ((grown.take self.length).drop toIdx)
    (.mutated, writeRange shifted toIdx ((other.drop fromIdx).take len), p3.2)

/-- Model of `impl HasCrossoverReplaceMutation for BytesInput`, `crossover.rs` lines
206-221: draw `from` below `other.len()`, `to` below `self.len()`,
`len = 1 + below(min(other.len() - from, self.len() - to))`; overwrite
`self[to..to+len]` with `other[from..from+len]`. -/
def mutate_crossover_replace (self other : Bytes) (st : MState) :
    MutationResult × Bytes × MState :=
  if self.length = 0 ∨ other.length = 0 then
    (.skipped, self, st)
  else
    let p1 := st.below other.length
    let p2 := p1.2.below self.length
    let p3 := p2.2.below (min (other.length - p1.1) (self.length - p2.1))
    let fromIdx := p1.1
    let toIdx := p2.1
    let len := 1 + p3.1
    (.mutated, writeRange self toIdx ((other.drop fromIdx).take len), p3.2)

/-- A packet-level mutation capability (`mutate_splice` /
`mutate_crossover_insert` / `mutate_crossover_replace` on the packet type):
in-place mutation of `self` given `other`, so the resulting packet is
returned alongside the `Result<MutationResult, Error>`. -/
def PacketFn (P E : Type) : Type :=
  P → P → MState → (Except E MutationResult) × P × MState

/-- Model of `PacketSpliceMutator` with its stored lower bound. -/
structure PacketSpliceMutator where
  min_packets : ℕ

/-- Model of `PacketSpliceMutator::new` — promotes `min_packets` to at least 1. -/
def PacketSpliceMutator.new (m : ℕ) : PacketSpliceMutator :=
  ⟨max 1 m⟩

/-- Model of `PacketDeleteMutator` with its stored lower bound. -/
structure PacketDeleteMutator where
  min_packets : ℕ

/-- Model of `PacketDeleteMutator::new` — promotes `min_packets` to at least 1. -/
def PacketDeleteMutator.new (m : ℕ) : PacketDeleteMutator :=
  ⟨max 1 m⟩

/-- Model of `PacketDuplicateMutator` with its stored upper bound (no promotion in the
source). -/
structure PacketDuplicateMutator where
  max_packets : ℕ

/-- Model of `PacketSpliceMutator::mutate` (`splice.rs` lines 130-145): skip when
`len <= min_packets`; else draw `packet` below `len - 1`, remove
`input[packet+1]` as `other`, splice it into `input[packet]`; re-insert
`other` at `packet+1` only when the packet-level splice returned `Skipped`. -/
def pktSpliceMutate {P E : Type} [Inhabited P] (ms : PacketFn P E)
    (mtr : PacketSpliceMutator) (input : List P) (st : MState) :
    (Except E MutationResult) × List P × MState :=
  if input.length ≤ mtr.min_packets then (.ok .skipped, input, st)
  else
    let p1 := st.below (input.length - 1)
    let packet := p1.1
    let other := input.getD (packet + 1) default
    let removed := input.eraseIdx (packet + 1)
    let r := ms (removed.getD packet default) other p1.2
    let seq := removed.set packet r.2.1
    match r.1 with
    | .ok .skipped => (.ok .skipped, seq.insertIdx (packet + 1) other, r.2.2)
    | .ok .mutated => (.ok .mutated, seq, r.2.2)
    | .error e => (.error e, seq, r.2.2)

/-- Model of `PacketReorderMutator::mutate` (`reorder.rs` lines 36-51). -/
def pktReorderMutate {P E : Type} [Inhabited P] (input : List P) (st : MState) :
    (Except E MutationResult) × List P × MState :=
  if input.length ≤ 1 then (.ok .skipped, input, st)
  else
    let p1 := st.below input.length
    let p2 := p1.2.below input.length
    if p1.1 = p2.1 then (.ok .skipped, input, p2.2)
    else
      (.ok .mutated,
       (input.set p1.1 (input.getD p2.1 default)).set p2.1 (input.getD p1.1 default),
       p2.2)

/-- Model of `PacketDeleteMutator::mutate` (`delete.rs` lines 41-50). -/
def pktDeleteMutate {P E : Type} (mtr : PacketDeleteMutator)
    (input : List P) (st : MState) :
    (Except E MutationResult) × List P × MState :=
  if input.length ≤ mtr.min_packets then (.ok .skipped, input, st)
  else
    let p1 := st.below input.length
    (.ok .mutated, input.eraseIdx p1.1, p1.2)

/-- Model of `PacketDuplicateMutator::mutate` (`duplicate.rs` lines 54-70). -/
def pktDuplicateMutate {P E : Type} [Inhabited P] (mtr : PacketDuplicateMutator)
    (input : List P) (st : MState) :
    (Except E MutationResult) × List P × MState :=
  if mtr.max_packets ≤ input.length then (.ok .skipped, input, st)
  else
    let p1 := st.below input.length
    let p2 := p1.2.below (input.length + 1)
    if p1.1 = p2.1 then (.ok .skipped, input, p2.2)
    else (.ok .mutated, input.insertIdx p2.1 (input.getD p1.1 default), p2.2)

/-- Model of `PacketCrossoverInsertMutator::mutate` (`crossover.rs` lines 123-137):
skip when `len <= 1`; draw `packet`, `other` below `len`; skip when equal;
clone `input[other]` and run the capability on `input[packet]` in place,
returning the capability's result. -/
def pktCrossoverInsertMutate {P E : Type} [Inhabited P] (mci : PacketFn P E)
    (input : List P) (st : MState) :
    (Except E MutationResult) × List P × MState :=
  if input.length ≤ 1 then (.ok .skipped, input, st)
  else
    let p1 := st.below input.length
    let p2 := p1.2.below input.length
    if p1.1 = p2.1 then (.ok .skipped, input, p2.2)
    else
      let r := mci (input.getD p1.1 default) (input.getD p2.1 default) p2.2
      (r.1, input.set p1.1 r.2.1, r.2.2)

/-- Model of `PacketCrossoverReplaceMutator::mutate` (`crossover.rs` lines 255-269) —
same shape as the insert variant. -/
def pktCrossoverReplaceMutate {P E : Type} [Inhabited P] (mcr : PacketFn P E)
    (input : List P) (st : MState) :
    (Except E MutationResult) × List P × MState :=
  if input.length ≤ 1 then (.ok .skipped, input, st)
  else
    let p1 := st.below input.length
    let p2 := p1.2.below input.length
    if p1.1 = p2.1 then (.ok .skipped, input, p2.2)
    else
      let r := mcr (input.getD p1.1 default) (input.getD p2.1 default) p2.2
      (r.1, input.set p1.1 r.2.1, r.2.2)

/-- The `HasHavocMutations::mutate_packet` dispatch: packet index, mutation
index, whole input, ambient state. -/
def HavocFn (P E : Type) : Type :=
  ℕ → ℕ → List P → MState → (Except E MutationResult) × List P × MState

/-- The `for _ in 0..iters` loop of `PacketHavocMutator::mutate`
(`havoc.rs` lines 202-210): each iteration draws a mutation index below
`nMut`, runs it, propagates errors, and upgrades the accumulated result to
`Mutated` when the iteration mutated. -/
def havocLoop {P E : Type} (mp : HavocFn P E) (nMut packet : ℕ) :
    ℕ → MutationResult → List P → MState →
      (Except E MutationResult) × List P × MState
  | 0, res, input, st => (.ok res, input, st)
  | iters + 1, res, input, st =>
    let p1 := st.below nMut
    let r := mp packet p1.1 input p1.2
    match r.1 with
    | .error e => (.error e, r.2.1, r.2.2)
    | .ok oc =>
      havocLoop mp nMut packet iters
        (if oc = .mutated then .mutated else res) r.2.1 r.2.2

/-- Model of `PacketHavocMutator::mutate` (`havoc.rs` lines 193-213): skip on empty
input; draw `iters` below 16 and a packet index below `len`; run the loop. -/
def pktHavocMutate {P E : Type} (mp : HavocFn P E) (nMut : ℕ)
    (input : List P) (st : MState) :
    (Except E MutationResult) × List P × MState :=
  if input.length = 0 then (.ok .skipped, input, st)
  else
    let p1 := st.below 16
    let p2 := p1.2.below input.length
    havocLoop mp nMut p2.1 p1.1 .skipped input p2.2

/-- A packet-sequence mutator, as scheduled by `PacketMutationScheduler`. -/
def SeqMutFn (P E : Type) : Type :=
  List P → MState → (Except E MutationResult) × List P × MState

/-- Model of `PacketMutationScheduler::scheduled_mutate` (`scheduler.rs` lines 83-92),
with explicit fuel for the `while result == Skipped` loop: draw a mutator
index below `|mutators|`, run exactly that mutator, retry on `Skipped`,
propagate errors, return the first non-skipped result. -/
def schedMutate {P E : Type} (muts : List (SeqMutFn P E)) :
    ℕ → List P → MState →
      Option ((Except E MutationResult) × List P × MState)
  | 0, _, _ => none
  | fuel + 1, input, st =>
    let p1 := st.below muts.length
    let r := (muts.getD p1.1 (fun inp s => (.ok .skipped, inp, s))) input p1.2
    match r.1 with
    | .ok .skipped => schedMutate muts fuel r.2.1 r.2.2
    | _ => some r

/-! Seed loader model (`src/src/input.rs::load_pcaps`).  A directory tree is
modelled abstractly: a file entry carries its extension, its size, whether
`std::fs::metadata` succeeds, whether `Capture::from_file` fails (a malformed
pcap — the source calls `.expect("invalid pcap format")` on it), and the
results of `from_pcap` and `evaluate_input` with error codes as naturals, so
that propagation "unchanged" is the identity on the code.  The outcome type
distinguishes a returned `Err` from a panic. -/

inductive FsEntry where
  | file (ext : String) (size : ℕ) (metaOk : Bool) (malformed : Bool)
      (parsed : Except ℕ ℕ) (evald : Except ℕ ℕ)
  | dir (metaOk : Bool) (entries : List FsEntry)

inductive LoadOutcome where
  | ok
  | error (e : ℕ)
  | panicked (msg : String)
deriving DecidableEq

mutual

/-- One iteration of the `for entry in read_dir` loop: skip entries whose
metadata is unreadable; for a non-empty file with extension `pcapng` or
`pcap`, `Capture::from_file(..).expect("invalid pcap format")` panics on a
malformed capture, then `from_pcap(..)?` and `evaluate_input(..)?` propagate
their errors; directories recurse. -/
def loadEntry : FsEntry → LoadOutcome
  | .file ext size metaOk malformed parsed evald =>
    if metaOk = false then .ok
    else if 0 < size then
      if ext = "pcapng" ∨ ext = "pcap" then
        if malformed then .panicked "invalid pcap format"
        else
          match parsed with
          | .error e => .error e
          | .ok _ =>
            match evald with
            | .error e => .error e
            | .ok _ => .ok
      else .ok
    else .ok
  | .dir metaOk entries =>
    if metaOk = false then .ok
    else loadList entries

/-- Walk of `load_pcaps` over a directory's entry list: the first error or panic
aborts the loop. -/
def loadList : List FsEntry → LoadOutcome
  | [] => .ok
  | e :: rest =>
    match loadEntry e with
    | .ok => loadList rest
    | r => r

end

mutual

/-- Whether the walk can reach a malformed pcap candidate (readable metadata,
non-empty, `.pcap`/`.pcapng` extension, malformed capture). -/
def entryHasMalformedPcap : FsEntry → Bool
  | .file ext size metaOk malformed _ _ =>
    metaOk && decide (0 < size)
      && (decide (ext = "pcapng") || decide (ext = "pcap")) && malformed
  | .dir metaOk entries => metaOk && listHasMalformedPcap entries

def listHasMalformedPcap : List FsEntry → Bool
  | [] => false
  | e :: rest => entryHasMalformedPcap e || listHasMalformedPcap rest

end

mutual

/-- The error codes that `from_pcap` or `evaluate_input` can raise during the
walk of an entry. -/
def entryErrors : FsEntry → List ℕ
  | .file ext size metaOk malformed parsed evald =>
    if metaOk = true ∧ 0 < size ∧ (ext = "pcapng" ∨ ext = "pcap") ∧ malformed = false then
      match parsed with
      | .error e => [e]
      | .ok _ =>
        match evald with
        | .error e => [e]
        | .ok _ => []
    else []
  | .dir metaOk entries => if metaOk = true then listErrors entries else []

def listErrors : List FsEntry → List ℕ
  | [] => []
  | e :: rest => entryErrors e ++ listErrors rest

end

theorem add_node_edges (g : StateGraph PS) (s : PS) :
    (g.add_node s).2.edges = g.edges := by
  unfold StateGraph.add_node; split <;> rfl

theorem add_node_last (g : StateGraph PS) (s : PS) :
    (g.add_node s).2.last_node = g.last_node := by
  unfold StateGraph.add_node; split <;> rfl

theorem add_node_nt (g : StateGraph PS) (s : PS) :
    (g.add_node s).2.new_transitions = g.new_transitions := by
  unfold StateGraph.add_node; split <;> rfl

theorem record_new_transitions (g : StateGraph PS) (s : PS) :
    (record g s).new_transitions = (g.new_transitions || isNovelRecord g s) := by
  unfold record StateGraph.add_edge isNovelRecord
  rcases hl : g.last_node with _ | old_id <;>
    simp only [add_node_edges, add_node_last, add_node_nt, hl]
  · simp
  · by_cases h : old_id = (g.add_node s).1 <;> simp [h, add_node_nt]

theorem runRecords_new_transitions (e : List PS) :
    ∀ g : StateGraph PS,
      (runRecords g e).new_transitions
        = (g.new_transitions || specNewPairRecorded g e) := by
  induction e with
  | nil => intro g; simp [runRecords, specNewPairRecorded]
  | cons s rest ih =>
    intro g
    show (runRecords (record g s) rest).new_transitions = _
    rw [ih (record g s), record_new_transitions, specNewPairRecorded,
      Bool.or_assoc]

theorem GInv.nodes_toFinset {total sts : Finset PS} {prs lastS g}
    (h : GInv total sts prs lastS g) : g.nodes.toFinset = sts :=
  Finset.ext fun x => by rw [List.mem_toFinset]; exact h.mem_iff x

theorem GInv.len_eq_card {total sts : Finset PS} {prs lastS g}
    (h : GInv total sts prs lastS g) : g.nodes.length = sts.card := by
  rw [← h.nodes_toFinset, List.toFinset_card_of_nodup h.nodup]

theorem GInv.len_le {total sts : Finset PS} {prs lastS g}
    (h : GInv total sts prs lastS g) : g.nodes.length ≤ U32 :=
  h.len_eq_card ▸ le_trans (Finset.card_le_card h.sub_total) h.card_le

theorem U32_pos : 0 < U32 := by norm_num [U32]

theorem add_node_nodes (g : StateGraph PS) (s : PS) :
    (g.add_node s).2.nodes = if s ∈ g.nodes then g.nodes else g.nodes ++ [s] := by
  unfold StateGraph.add_node; split <;> simp_all

theorem add_node_mem (g : StateGraph PS) (s : PS) (x : PS) :
    x ∈ (g.add_node s).2.nodes ↔ (x ∈ g.nodes ∨ x = s) := by
  rw [add_node_nodes]; split <;> simp_all

theorem add_node_indexOf_stable (g : StateGraph PS) (s : PS) {x : PS}
    (hx : x ∈ g.nodes) :
    (g.add_node s).2.nodes.indexOf x = g.nodes.indexOf x := by
  rw [add_node_nodes]; split
  · rfl
  · exact List.indexOf_append_of_mem hx

theorem add_node_id (g : StateGraph PS) (s : PS) :
    (g.add_node s).1 = (g.add_node s).2.nodes.indexOf s % U32 := by
  by_cases h : s ∈ g.nodes
  · unfold StateGraph.add_node
    simp only [h, if_true]
  · have hnodes : (g.add_node s).2.nodes = g.nodes ++ [s] := by
      rw [add_node_nodes]; simp [h]
    have hidx : (g.nodes ++ [s]).indexOf s = g.nodes.length := by
      rw [List.indexOf_append_of_not_mem h, List.indexOf_cons_self]
      exact Nat.add_zero _
    unfold StateGraph.add_node
    simp only [h, if_false, hnodes, hidx]

theorem add_node_nodup (g : StateGraph PS) (s : PS) (h : g.nodes.Nodup) :
    (g.add_node s).2.nodes.Nodup := by
  rw [add_node_nodes]; split
  · exact h
  · rename_i hns
    rw [List.nodup_append]
    refine ⟨h, List.nodup_singleton s, ?_⟩
    intro a ha hb
    rw [List.mem_singleton] at hb
    subst hb
    exact hns ha

theorem add_edge_nodes (g : StateGraph PS) (id : ℕ) :
    (g.add_edge id).nodes = g.nodes := by
  obtain ⟨n, e, l, t⟩ := g
  rcases l with _ | old
  · rfl
  · by_cases h : old ≠ id <;> simp [StateGraph.add_edge, h]

theorem add_edge_last (g : StateGraph PS) (id : ℕ) :
    (g.add_edge id).last_node = some id := by
  obtain ⟨n, e, l, t⟩ := g
  rcases l with _ | old
  · rfl
  · by_cases h : old ≠ id <;> simp [StateGraph.add_edge, h]

theorem add_edge_edges (g : StateGraph PS) (id : ℕ) :
    (g.add_edge id).edges
      = match g.last_node with
        | some old_id =>
          if old_id ≠ id then insert (pack_transition old_id id) g.edges
          else g.edges
        | none => g.edges := by
  obtain ⟨n, e, l, t⟩ := g
  rcases l with _ | old
  · rfl
  · by_cases h : old ≠ id <;> simp [StateGraph.add_edge, h]

theorem indexOf_mod_inj {L : List PS} (hlen : L.length ≤ U32) {x y : PS}
    (hx : x ∈ L) (hy : y ∈ L) :
    L.indexOf x % U32 = L.indexOf y % U32 ↔ x = y := by
  have hxl : L.indexOf x < U32 := lt_of_lt_of_le (List.indexOf_lt_length.2 hx) hlen
  have hyl : L.indexOf y < U32 := lt_of_lt_of_le (List.indexOf_lt_length.2 hy) hlen
  rw [Nat.mod_eq_of_lt hxl, Nat.mod_eq_of_lt hyl]
  exact List.indexOf_inj hx hy

theorem record_inv {total sts : Finset PS} {prs lastS g}
    (h : GInv total sts prs lastS g) (s : PS) (hs : s ∈ total) :
    GInv total (insert s sts) (stepPairs lastS s prs) (some s) (record g s) := by
  set ga := (g.add_node s).2 with hga
  set id := (g.add_node s).1 with hid
  have hrec : record g s = ga.add_edge id := rfl
  have hmem : ∀ x, x ∈ ga.nodes ↔ (x ∈ g.nodes ∨ x = s) := add_node_mem g s
  have hmem' : ∀ x, x ∈ ga.nodes ↔ x ∈ insert s sts := by
    intro x
    rw [hmem x, Finset.mem_insert, h.mem_iff x, or_comm]
  have hnodup : ga.nodes.Nodup := add_node_nodup g s h.nodup
  have hsub : insert s sts ⊆ total := Finset.insert_subset hs h.sub_total
  have hlen : ga.nodes.length ≤ U32 := by
    have : ga.nodes.toFinset = insert s sts :=
      Finset.ext fun x => by rw [List.mem_toFinset]; exact hmem' x
    calc ga.nodes.length = ga.nodes.toFinset.card :=
          (List.toFinset_card_of_nodup hnodup).symm
      _ = (insert s sts).card := by rw [this]
      _ ≤ total.card := Finset.card_le_card hsub
      _ ≤ U32 := h.card_le
  have hsmem : s ∈ ga.nodes := (hmem s).2 (Or.inr rfl)
  have hstable : ∀ {x : PS}, x ∈ g.nodes →
      ga.nodes.indexOf x = g.nodes.indexOf x := fun hx =>
    add_node_indexOf_stable g s hx
  have hidval : id = ga.nodes.indexOf s % U32 := add_node_id g s
  have hcongr : ∀ pr ∈ prs, packAt ga.nodes pr = packAt g.nodes pr := by
    intro pr hpr
    obtain ⟨h1, h2, _⟩ := h.pairs_mem pr hpr
    unfold packAt
    rw [hstable h1, hstable h2]
  have himg : prs.image (packAt ga.nodes) = prs.image (packAt g.nodes) :=
    Finset.image_congr fun pr hpr => hcongr pr hpr
  refine ⟨?_, ?_, hsub, h.card_le, ?_, ?_, ?_, ?_⟩
  · rw [hrec, add_edge_nodes]; exact hnodup
  · intro x; rw [hrec, add_edge_nodes]; exact hmem' x
  · -- pairs_mem
    intro pr hpr
    rw [hrec, add_edge_nodes]
    rcases hl : lastS with _ | p
    · subst hl
      obtain ⟨h1, h2, h3⟩ := h.pairs_mem pr (by simpa [stepPairs] using hpr)
      exact ⟨(hmem _).2 (Or.inl h1), (hmem _).2 (Or.inl h2), h3⟩
    · subst hl
      simp only [stepPairs] at hpr
      by_cases hps : p = s
      · simp only [hps, ne_eq, not_true_eq_false, if_false] at hpr
        obtain ⟨h1, h2, h3⟩ := h.pairs_mem pr hpr
        exact ⟨(hmem _).2 (Or.inl h1), (hmem _).2 (Or.inl h2), h3⟩
      · simp only [ne_eq, hps, not_false_eq_true, if_true, Finset.mem_insert] at hpr
        rcases hpr with hpr | hpr
        · subst hpr
          have hp : p ∈ g.nodes := ((h.last_some p rfl).1)
          exact ⟨(hmem _).2 (Or.inl hp), hsmem, hps⟩
        · obtain ⟨h1, h2, h3⟩ := h.pairs_mem pr hpr
          exact ⟨(hmem _).2 (Or.inl h1), (hmem _).2 (Or.inl h2), h3⟩
  · -- edges_eq
    rw [hrec, add_edge_edges, add_edge_nodes]
    have hgalast : ga.last_node = g.last_node := add_node_last g s
    rcases hl : lastS with _ | p
    · subst hl
      rw [hgalast, h.last_none rfl]
      show ga.edges = _
      rw [add_node_edges, h.edges_eq, stepPairs, himg]
    · subst hl
      obtain ⟨hp, hlast⟩ := h.last_some p rfl
      have hpga : p ∈ ga.nodes := (hmem p).2 (Or.inl hp)
      have holdid : g.nodes.indexOf p % U32 = ga.nodes.indexOf p % U32 := by
        rw [hstable hp]
      rw [hgalast, hlast]
      have hguard : (g.nodes.indexOf p % U32 ≠ id)
          ↔ p ≠ s := by
        rw [holdid, hidval]
        exact not_congr (indexOf_mod_inj hlen hpga hsmem)
      by_cases hps : p = s
      · have : ¬ (g.nodes.indexOf p % U32 ≠ id) := by
          rw [hguard]; simp [hps]
        simp only [this, if_false]
        show ga.edges = _
        rw [add_node_edges, h.edges_eq, stepPairs]
        simp only [hps, ne_eq, not_true_eq_false, if_false]
        exact himg.symm
      · have hne : g.nodes.indexOf p % U32 ≠ id := hguard.2 hps
        simp only [hne, ne_eq, not_false_eq_true, if_true]
        show insert _ ga.edges = _
        rw [add_node_edges, h.edges_eq, stepPairs]
        simp only [ne_eq, hps, not_false_eq_true, if_true]
        rw [Finset.image_insert, himg]
        have : pack_transition (g.nodes.indexOf p % U32) id
            = packAt ga.nodes (p, s) := by
          unfold packAt
          rw [holdid, hidval]
        rw [this]
  · -- last_some
    intro q hq
    injection hq with hq
    subst hq
    refine ⟨by rw [hrec, add_edge_nodes]; exact hsmem, ?_⟩
    rw [hrec, add_edge_last, add_edge_nodes, hidval]
  · -- last_none
    intro hq; exact absurd hq (by simp)

theorem pairsFromOpt_nil (lastS : Option PS) : pairsFromOpt lastS [] = [] := by
  rcases lastS with _ | p <;> rfl

theorem lastOfOpt_nil (lastS : Option PS) : lastOfOpt lastS [] = lastS := rfl

theorem lastOfOpt_cons (lastS : Option PS) (s : PS) (rest : List PS) :
    lastOfOpt lastS (s :: rest) = lastOfOpt (some s) rest := by
  rcases rest with _ | ⟨y, t⟩
  · rfl
  · unfold lastOfOpt
    rw [List.getLast?_cons_cons]
    rcases hz : (y :: t).getLast? with _ | z
    · exact absurd hz (by simp)
    · rfl

theorem nonSelfPairs_cons_cons (p s : PS) (rest : List PS) :
    nonSelfPairs (p :: s :: rest)
      = (if p ≠ s then [(p, s)] else []) ++ nonSelfPairs (s :: rest) := by
  unfold nonSelfPairs
  show List.filter _ ((p, s) :: (s :: rest).zip rest) = _
  rw [List.filter_cons]
  by_cases h : p = s <;> simp [h]

theorem stepPairs_union (lastS : Option PS) (s : PS) (prs : Finset (PS × PS))
    (rest : List PS) :
    stepPairs lastS s prs ∪ (pairsFromOpt (some s) rest).toFinset
      = prs ∪ (pairsFromOpt lastS (s :: rest)).toFinset := by
  rcases lastS with _ | p
  · rfl
  · simp only [stepPairs, pairsFromOpt]
    rw [nonSelfPairs_cons_cons]
    by_cases h : p = s
    · simp [h]
    · simp only [ne_eq, h, not_false_eq_true, if_true, List.toFinset_append]
      ext pr
      simp only [Finset.mem_union, Finset.mem_insert, List.mem_toFinset,
        List.mem_singleton]
      tauto

theorem runRecords_inv (e : List PS) :
    ∀ {total sts : Finset PS} {prs lastS} {g : StateGraph PS},
      GInv total sts prs lastS g → (∀ x ∈ e, x ∈ total) →
      GInv total (sts ∪ e.toFinset)
        (prs ∪ (pairsFromOpt lastS e).toFinset)
        (lastOfOpt lastS e) (runRecords g e) := by
  induction e with
  | nil =>
    intro total sts prs lastS g h _
    simpa [runRecords, pairsFromOpt_nil, lastOfOpt_nil] using h
  | cons s rest ih =>
    intro total sts prs lastS g h he
    have hs : s ∈ total := he s (List.mem_cons_self s rest)
    have h1 := record_inv h s hs
    have h2 := ih h1 (fun x hx => he x (List.mem_cons_of_mem s hx))
    have hA : insert s sts ∪ rest.toFinset = sts ∪ (s :: rest).toFinset := by
      ext x
      simp only [Finset.mem_union, Finset.mem_insert, List.toFinset_cons,
        List.mem_toFinset]
      tauto
    have hB := stepPairs_union lastS s prs rest
    have hC := (lastOfOpt_cons lastS s rest).symm
    rw [hA, hB, hC] at h2
    exact h2

theorem reset_inv {total sts : Finset PS} {prs lastS} {g : StateGraph PS}
    (h : GInv total sts prs lastS g) :
    GInv total sts prs none (pre_exec g) := by
  refine ⟨h.nodup, h.mem_iff, h.sub_total, h.card_le, h.pairs_mem,
    h.edges_eq, ?_, fun _ => rfl⟩
  intro p hp
  exact absurd hp (by simp)

theorem runExecs_inv (execs : List (List PS)) :
    ∀ {total sts : Finset PS} {prs lastS} {g : StateGraph PS},
      GInv total sts prs lastS g → (∀ x ∈ statesOf execs, x ∈ total) →
      GInv total (sts ∪ (statesOf execs).toFinset)
        (prs ∪ (pairsOf execs).toFinset)
        (campLast lastS execs) (execs.foldl runExec g) := by
  induction execs with
  | nil =>
    intro total sts prs lastS g h _
    simpa [statesOf, pairsOf, campLast] using h
  | cons e rest ih =>
    intro total sts prs lastS g h he
    have h0 := reset_inv h
    have h1 := runRecords_inv e h0
      (fun x hx => he x (by
        simp only [statesOf, List.flatten_cons, List.mem_append]
        exact Or.inl hx))
    have h2 := ih h1
      (fun x hx => he x (by
        simp only [statesOf, List.flatten_cons, List.mem_append]
        exact Or.inr hx))
    have hA : (sts ∪ e.toFinset) ∪ (statesOf rest).toFinset
        = sts ∪ (statesOf (e :: rest)).toFinset := by
      simp only [statesOf, List.flatten_cons, List.toFinset_append,
        Finset.union_assoc]
    have hB : (prs ∪ (pairsFromOpt none e).toFinset) ∪ (pairsOf rest).toFinset
        = prs ∪ (pairsOf (e :: rest)).toFinset := by
      simp only [pairsFromOpt, pairsOf, List.map_cons, List.flatten_cons,
        List.toFinset_append, Finset.union_assoc]
    rw [hA, hB] at h2
    exact h2

theorem new_inv (total : Finset PS) (hc : total.card ≤ U32) :
    GInv total ∅ ∅ none (StateGraph.new : StateGraph PS) := by
  refine ⟨List.nodup_nil, by simp [StateGraph.new], by simp, hc,
    by simp, by simp [StateGraph.new], ?_, fun _ => rfl⟩
  intro p hp
  exact absurd hp (by simp)

theorem pack_transition_inj {a b c d : ℕ} (hb : b < U32) (hd : d < U32)
    (h : pack_transition a b = pack_transition c d) : a = c ∧ b = d := by
  unfold pack_transition U32 at *
  omega

theorem card_image_packAt {L : List PS} (hlen : L.length ≤ U32)
    {prs : Finset (PS × PS)} (hmem : ∀ pr ∈ prs, pr.1 ∈ L ∧ pr.2 ∈ L) :
    (prs.image (packAt L)).card = prs.card := by
  apply Finset.card_image_of_injOn
  intro pr hpr pr' hpr' heq
  obtain ⟨h1, h2⟩ := hmem pr hpr
  obtain ⟨h1', h2'⟩ := hmem pr' hpr'
  have hb : L.indexOf pr.2 % U32 < U32 := Nat.mod_lt _ U32_pos
  have hd : L.indexOf pr'.2 % U32 < U32 := Nat.mod_lt _ U32_pos
  obtain ⟨ha, hbb⟩ := pack_transition_inj hb hd heq
  have e1 : pr.1 = pr'.1 := (indexOf_mod_inj hlen h1 h1').1 ha
  have e2 : pr.2 = pr'.2 := (indexOf_mod_inj hlen h2 h2').1 hbb
  exact Prod.ext e1 e2

/-- Claim C1: after any sequence of `record` calls across any number of
executions separated by `pre_exec`, `info()` returns `(|nodes|, |edges|)`
where `|nodes|` is the number of distinct states ever recorded and `|edges|`
is the number of distinct ordered non-self pairs observed consecutively
within a single execution (self-loops add no edge).  The hypothesis keeps the
distinct states within the `u32` id space used by the code. -/
theorem c1_observer_info_counts (execs : List (List PS))
    (h : specNodeCount execs ≤ U32) :
    info (runCampaign execs) = (specNodeCount execs, specEdgeCount execs) := by
  have h0 := new_inv ((statesOf execs).toFinset) h
  have H := runExecs_inv execs h0 (fun x hx => List.mem_toFinset.2 hx)
  simp only [Finset.empty_union] at H
  show info (List.foldl runExec StateGraph.new execs)
      = (specNodeCount execs, specEdgeCount execs)
  have hc := card_image_packAt H.len_le
    (fun pr hpr => ⟨(H.pairs_mem pr hpr).1, (H.pairs_mem pr hpr).2.1⟩)
  unfold info
  rw [H.len_eq_card, H.edges_eq, hc]
  rfl

theorem c1_observer_info_counts_witness :
    specNodeCount [[1, 2, 3, 2, 4], [1, 2, 3, 2, 4], [5, 5, 5]] ≤ U32
      ∧ info (runCampaign [[1, 2, 3, 2, 4], [1, 2, 3, 2, 4], [5, 5, 5]])
          = (specNodeCount [[1, 2, 3, 2, 4], [1, 2, 3, 2, 4], [5, 5, 5]],
             specEdgeCount [[1, 2, 3, 2, 4], [1, 2, 3, 2, 4], [5, 5, 5]]) :=
  ⟨by decide, c1_observer_info_counts _ (by decide)⟩

/-- Claim C2: `had_new_transitions()` returns true after a `pre_exec`
followed by some `record`s iff at least one pair recorded since that
`pre_exec` was not already in the edge set at the moment of that `record`
call. -/
theorem c2_had_new_transitions_iff (g : StateGraph PS) (e : List PS) :
    had_new_transitions (runRecords (pre_exec g) e) = true
      ↔ specNewPairRecorded (pre_exec g) e = true := by
  unfold had_new_transitions
  rw [runRecords_new_transitions]
  simp [pre_exec, StateGraph.reset]

theorem le_imp_pairLe {v w : ℕ} (h : v ≤ w) :
    pairLe (unpack_transition v) (unpack_transition w) := by
  unfold pairLe unpack_transition U32
  omega

theorem dotPairs_sorted (g : StateGraph PS) :
    List.Sorted pairLe (dotPairs g) := by
  have hs : List.Sorted (· ≤ ·) (g.edges.sort (· ≤ ·)) :=
    Finset.sort_sorted _ _
  exact List.Pairwise.map _ (fun a b hab => le_imp_pairLe hab) hs

theorem pack_transition_lt {a b : ℕ} (ha : a < U32) (hb : b < U32) :
    pack_transition a b < U32 * U32 := by
  unfold pack_transition U32 at *
  omega

theorem add_node_id_lt (g : StateGraph PS) (s : PS) : (g.add_node s).1 < U32 := by
  unfold StateGraph.add_node
  split <;> exact Nat.mod_lt _ U32_pos

theorem gBound_record {g : StateGraph PS} (h : GBound g) (s : PS) :
    GBound (record g s) := by
  have hid : (g.add_node s).1 < U32 := add_node_id_lt g s
  have hrec : record g s = (g.add_node s).2.add_edge (g.add_node s).1 := rfl
  constructor
  · intro v hv
    rw [hrec, add_edge_edges, add_node_last, add_node_edges] at hv
    rcases hl : g.last_node with _ | old
    · rw [hl] at hv
      exact h.1 v hv
    · rw [hl] at hv
      have hv2 : v ∈ (if old ≠ (g.add_node s).1 then
          insert (pack_transition old (g.add_node s).1) g.edges
          else g.edges) := hv
      by_cases hne : old ≠ (g.add_node s).1
      · rw [if_pos hne] at hv2
        rcases Finset.mem_insert.1 hv2 with hv2 | hv2
        · subst hv2
          exact pack_transition_lt (h.2 old hl) hid
        · exact h.1 v hv2
      · rw [if_neg hne] at hv2
        exact h.1 v hv2
  · intro i hi
    rw [hrec, add_edge_last] at hi
    injection hi with hi
    subst hi
    exact hid

theorem gBound_runRecords (e : List PS) :
    ∀ {g : StateGraph PS}, GBound g → GBound (runRecords g e) := by
  induction e with
  | nil => intro g h; exact h
  | cons s rest ih =>
    intro g h
    exact ih (gBound_record h s)

theorem gBound_reset {g : StateGraph PS} (h : GBound g) : GBound (pre_exec g) := by
  refine ⟨h.1, ?_⟩
  intro i hi
  exact absurd hi (by simp [pre_exec, StateGraph.reset])

theorem gBound_campaign (execs : List (List PS)) :
    GBound (runCampaign execs) := by
  suffices H : ∀ (l : List (List PS)) (g : StateGraph PS),
      GBound g → GBound (l.foldl runExec g) by
    refine H execs StateGraph.new ⟨?_, ?_⟩
    · intro v hv; exact absurd hv (by simp [StateGraph.new])
    · intro i hi; exact absurd hi (by simp [StateGraph.new])
  intro l
  induction l with
  | nil => intro g h; exact h
  | cons e rest ih =>
    intro g h
    exact ih _ (gBound_runRecords e (gBound_reset h))

theorem pack_unpack (v : ℕ) :
    pack_transition (unpack_transition v).1 (unpack_transition v).2 = v := by
  unfold pack_transition unpack_transition U32
  omega

/-- Claim C8: for every reachable state graph the DOT rendering is exactly one
header line, one line `  "N" -> "M";` per edge, and one trailing brace line;
the edge lines appear in ascending lexicographic `(from, to)` order, i.e. the
ascending order of the packed 64-bit values coincides with the lexicographic
order of the id pairs. -/
theorem c8_print_dot_format (execs : List (List PS)) :
    print_dot (runCampaign execs)
        = dotHeader :: (dotPairs (runCampaign execs)).map edgeLine ++ [dotFooter]
      ∧ (dotPairs (runCampaign execs)).length = (runCampaign execs).edges.card
      ∧ List.Sorted pairLe (dotPairs (runCampaign execs))
      ∧ (∀ pr ∈ dotPairs (runCampaign execs),
          pack_transition pr.1 pr.2 ∈ (runCampaign execs).edges
            ∧ pr.1 < U32 ∧ pr.2 < U32)
      ∧ (∀ v ∈ (runCampaign execs).edges,
          unpack_transition v ∈ dotPairs (runCampaign execs)) := by
  refine ⟨?_, ?_, dotPairs_sorted _, ?_, ?_⟩
  · simp [print_dot, dotPairs, List.map_map, Function.comp]
  · simp [dotPairs, Finset.length_sort]
  · intro pr hpr
    rw [dotPairs, List.mem_map] at hpr
    obtain ⟨v, hv, hpr⟩ := hpr
    rw [Finset.mem_sort] at hv
    subst hpr
    have hb := (gBound_campaign execs).1 v hv
    refine ⟨by rw [pack_unpack]; exact hv, ?_, ?_⟩
    · show v / U32 < U32
      have : 0 < U32 := U32_pos
      exact Nat.div_lt_of_lt_mul hb
    · exact Nat.mod_lt _ U32_pos
  · intro v hv
    rw [dotPairs, List.mem_map]
    exact ⟨v, (Finset.mem_sort _).2 hv, rfl⟩

theorem below_lt (st : MState) {n : ℕ} (hn : 0 < n) : (st.below n).1 < n := by
  unfold MState.below
  rcases st.rand with _ | ⟨x, r⟩
  · exact hn
  · exact Nat.mod_lt _ hn

theorem below_max_size (st : MState) (n : ℕ) :
    (st.below n).2.max_size = st.max_size := by
  unfold MState.below
  rcases h : st.rand with _ | ⟨x, r⟩
  · rfl
  · rfl

theorem listResize_length (l : Bytes) (n v : ℕ) : (listResize l n v).length = n := by
  unfold listResize
  rw [List.length_append, List.length_take, List.length_replicate]
  omega

theorem listResize_of_le {l : Bytes} {n : ℕ} (h : l.length ≤ n) (v : ℕ) :
    listResize l n v = l ++ List.replicate (n - l.length) v := by
  unfold listResize
  rw [List.take_of_length_le h]

theorem drop_eq_nil_len {l : Bytes} {n : ℕ} (h : l.length ≤ n) : l.drop n = [] :=
  List.drop_eq_nil_of_le h

/-- The spliced buffer, in both the resize and the no-resize case: prefix up
to `toIdx`, then the copied slice, then whatever old bytes lie beyond the
copied range. -/
theorem splice_write_eq (self seg : Bytes) (toIdx : ℕ) (hto : toIdx ≤ self.length) :
    writeRange
        (if self.length < toIdx + seg.length
         then listResize self (toIdx + seg.length) 0
         else self)
        toIdx seg
      = self.take toIdx ++ seg ++ self.drop (toIdx + seg.length) := by
  by_cases hcase : self.length < toIdx + seg.length
  · rw [if_pos hcase, listResize_of_le (le_of_lt hcase)]
    unfold writeRange
    have h1 : (self ++ List.replicate (toIdx + seg.length - self.length) 0).take toIdx
        = self.take toIdx := by
      rw [List.take_append_eq_append_take]
      have : toIdx - self.length = 0 := by omega
      rw [this]
      simp
    have h2 : (self ++ List.replicate (toIdx + seg.length - self.length) 0).drop
        (toIdx + seg.length) = [] := by
      apply drop_eq_nil_len
      rw [List.length_append, List.length_replicate]
      omega
    have h3 : self.drop (toIdx + seg.length) = [] :=
      drop_eq_nil_len (le_of_lt hcase)
    rw [h1, h2, h3]
  · rw [if_neg hcase]
    rfl

theorem mutate_splice_skipped_iff (self other : Bytes) (st : MState) :
    (mutate_splice self other st).1 = .skipped ↔ (self = [] ∨ other = []) := by
  by_cases h : self.length = 0 ∨ other.length = 0
  · simp only [mutate_splice, if_pos h]
    simpa [List.length_eq_zero] using h
  · simp only [mutate_splice, if_neg h]
    simp only [List.length_eq_zero] at h
    simpa using h

theorem mutate_splice_mutated_eq (self other : Bytes) (st : MState)
    (h1 : self ≠ []) (h2 : other ≠ []) :
    ∃ toIdx fromIdx st2,
      toIdx < self.length ∧ fromIdx < other.length ∧
      mutate_splice self other st
        = (.mutated,
           self.take toIdx ++ other.drop fromIdx
             ++ self.drop (toIdx + (other.length - fromIdx)),
           st2) := by
  have hs : 0 < self.length := List.length_pos.2 h1
  have ho : 0 < other.length := List.length_pos.2 h2
  have hcond : ¬(self.length = 0 ∨ other.length = 0) := by omega
  refine ⟨(st.below self.length).1, ((st.below self.length).2.below other.length).1,
    ((st.below self.length).2.below other.length).2,
    below_lt st hs, below_lt _ ho, ?_⟩
  have hto : (st.below self.length).1 ≤ self.length := le_of_lt (below_lt st hs)
  have hseg : (other.drop ((st.below self.length).2.below other.length).1).length
      = other.length - ((st.below self.length).2.below other.length).1 :=
    List.length_drop _ _
  simp only [mutate_splice, if_neg hcond]
  rw [Prod.mk.injEq, Prod.mk.injEq]
  refine ⟨rfl, ?_, rfl⟩
  have := splice_write_eq self
    (other.drop ((st.below self.length).2.below other.length).1)
    (st.below self.length).1 hto
  rw [hseg] at this
  exact this

/-- The crossover-inserted buffer: prefix up to `toIdx`, the copied slice,
then the whole old suffix from `toIdx` (shifted right by `len`). -/
theorem crossover_insert_write_eq (self seg : Bytes) (toIdx len : ℕ)
    (hto : toIdx ≤ self.length) (hseg : seg.length = len) :
    writeRange
        (writeRange (self ++ List.replicate len 0) (toIdx + len)
          (((self ++ List.replicate len 0).take self.length).drop toIdx))
        toIdx seg
      = self.take toIdx ++ seg ++ self.drop toIdx := by
  have htake : (self ++ List.replicate len 0).take self.length = self := by
    rw [List.take_append_eq_append_take]
    simp
  rw [htake]
  have hlen1 : (self ++ List.replicate len 0).length = self.length + len := by
    rw [List.length_append, List.length_replicate]
  have hdroplen : (self.drop toIdx).length = self.length - toIdx :=
    List.length_drop _ _
  have hshift : writeRange (self ++ List.replicate len 0) (toIdx + len)
      (self.drop toIdx)
      = (self ++ List.replicate len 0).take (toIdx + len) ++ self.drop toIdx := by
    unfold writeRange
    have : (self ++ List.replicate len 0).drop (toIdx + len + (self.drop toIdx).length)
        = [] := by
      apply drop_eq_nil_len
      rw [hlen1, hdroplen]
      omega
    rw [this, List.append_nil]
  rw [hshift]
  have hAlen : ((self ++ List.replicate len 0).take (toIdx + len)).length
      = toIdx + len := by
    rw [List.length_take, hlen1]
    omega
  unfold writeRange
  have h1 : (((self ++ List.replicate len 0).take (toIdx + len)) ++ self.drop toIdx).take toIdx
      = self.take toIdx := by
    rw [List.take_append_eq_append_take]
    have hz : toIdx - ((self ++ List.replicate len 0).take (toIdx + len)).length = 0 := by
      rw [hAlen]; omega
    rw [hz, List.take_take]
    have hm : min toIdx (toIdx + len) = toIdx := by omega
    rw [hm, List.take_append_eq_append_take]
    have hz2 : toIdx - self.length = 0 := by omega
    rw [hz2]
    simp
  have h2 : (((self ++ List.replicate len 0).take (toIdx + len)) ++ self.drop toIdx).drop
      (toIdx + seg.length) = self.drop toIdx := by
    rw [List.drop_append_eq_append_drop]
    have hz : ((self ++ List.replicate len 0).take (toIdx + len)).drop (toIdx + seg.length)
        = [] := by
      apply drop_eq_nil_len
      rw [hAlen, hseg]
    have hz2 : toIdx + seg.length - ((self ++ List.replicate len 0).take (toIdx + len)).length
        = 0 := by
      rw [hAlen, hseg]
      omega
    rw [hz, hz2, List.nil_append, List.drop_zero]
  rw [h1, h2]

theorem mutate_crossover_insert_skipped_iff (self other : Bytes) (st : MState) :
    (mutate_crossover_insert self other st).1 = .skipped
      ↔ (self = [] ∨ other = []) := by
  by_cases h : self.length = 0 ∨ other.length = 0
  · simp only [mutate_crossover_insert, if_pos h]
    simpa [List.length_eq_zero] using h
  · simp only [mutate_crossover_insert, if_neg h]
    simp only [List.length_eq_zero] at h
    simpa using h

theorem mutate_crossover_insert_mutated_eq (self other : Bytes) (st : MState)
    (h1 : self ≠ []) (h2 : other ≠ []) :
    ∃ fromIdx toIdx len st2,
      fromIdx < other.length ∧ toIdx < self.length ∧
      1 ≤ len ∧ len ≤ other.length - fromIdx ∧
      mutate_crossover_insert self other st
        = (.mutated,
           self.take toIdx ++ (other.drop fromIdx).take len ++ self.drop toIdx,
           st2) := by
  have hs : 0 < self.length := List.length_pos.2 h1
  have ho : 0 < other.length := List.length_pos.2 h2
  have hcond : ¬(self.length = 0 ∨ other.length = 0) := by omega
  set p1 := st.below other.length with hp1
  set p2 := p1.2.below self.length with hp2
  set p3 := p2.2.below (other.length - p1.1) with hp3
  have hfrom : p1.1 < other.length := below_lt st ho
  have hto : p2.1 < self.length := below_lt _ hs
  have hlen : p3.1 < other.length - p1.1 := below_lt _ (by omega)
  refine ⟨p1.1, p2.1, p3.1 + 1, p3.2, hfrom, hto, by omega, by omega, ?_⟩
  have hseg : ((other.drop p1.1).take (p3.1 + 1)).length = p3.1 + 1 := by
    rw [List.length_take, List.length_drop]
    omega
  simp only [mutate_crossover_insert, if_neg hcond]
  rw [Prod.mk.injEq, Prod.mk.injEq]
  refine ⟨rfl, ?_, rfl⟩
  have hres : listResize self (self.length + (p3.1 + 1)) 0
      = self ++ List.replicate (p3.1 + 1) 0 := by
    rw [listResize_of_le (by omega)]
    congr 1
    congr 1
    omega
  rw [hres]
  exact crossover_insert_write_eq self ((other.drop p1.1).take (p3.1 + 1))
    p2.1 (p3.1 + 1) (le_of_lt hto) hseg

theorem mutate_splice_max_independent (self other : Bytes) (r : List ℕ)
    (n n' : ℕ) :
    (mutate_splice self other ⟨r, n⟩).1 = (mutate_splice self other ⟨r, n'⟩).1
    ∧ (mutate_splice self other ⟨r, n⟩).2.1
        = (mutate_splice self other ⟨r, n'⟩).2.1 := by
  by_cases hc : self.length = 0 ∨ other.length = 0
  · simp only [mutate_splice, if_pos hc, and_self]
  · rcases r with _ | ⟨x, r⟩
    · simp only [mutate_splice, if_neg hc, MState.below, and_self]
    · rcases r with _ | ⟨y, r⟩ <;>
        simp only [mutate_splice, if_neg hc, MState.below, and_self]

theorem mutate_crossover_insert_max_independent (self other : Bytes)
    (r : List ℕ) (n n' : ℕ) :
    (mutate_crossover_insert self other ⟨r, n⟩).1
        = (mutate_crossover_insert self other ⟨r, n'⟩).1
    ∧ (mutate_crossover_insert self other ⟨r, n⟩).2.1
        = (mutate_crossover_insert self other ⟨r, n'⟩).2.1 := by
  by_cases hc : self.length = 0 ∨ other.length = 0
  · simp only [mutate_crossover_insert, if_pos hc, and_self]
  · rcases r with _ | ⟨x, r⟩
    · simp only [mutate_crossover_insert, if_neg hc, MState.below, and_self]
    · rcases r with _ | ⟨y, r⟩
      · simp only [mutate_crossover_insert, if_neg hc, MState.below, and_self]
      · rcases r with _ | ⟨z, r⟩ <;>
          simp only [mutate_crossover_insert, if_neg hc, MState.below, and_self]

/-- Claim C3 counterexample: splicing `"ABC"` with `"X"` at the drawn
positions `to = 0`, `from = 0` yields `"XBC"` — `self[to..]` is `[88, 66, 67]`
while `other[from..]` is `[88]`, so the suffix is not fully replaced. -/
theorem c3_counterexample :
    mutate_splice [65, 66, 67] [88] ⟨[0, 0], 0⟩
        = (.mutated, [88, 66, 67], ⟨[], 0⟩)
    ∧ (([88, 66, 67] : Bytes).drop 0 ≠ ([88] : Bytes).drop 0) :=
  ⟨by decide, by decide⟩

/-- Claim C3 (amended): the canonical bytes splice returns `Skipped` iff
`|self| = 0` or `|other| = 0`; whenever it returns `Mutated` with chosen
positions `to` and `from`, afterwards `self[0..to]` is unchanged,
`self[to..to+len]` equals `other[from..]` for `len = |other| - from`, and any
old bytes beyond `to + len` are kept (the buffer grows exactly when
`to + len > |self|`; it is never truncated). -/
theorem c3_splice_contract (self other : Bytes) (st : MState) :
    ((mutate_splice self other st).1 = .skipped ↔ (self = [] ∨ other = []))
    ∧ (self ≠ [] → other ≠ [] →
        ∃ toIdx fromIdx st2,
          toIdx < self.length ∧ fromIdx < other.length ∧
          mutate_splice self other st
            = (.mutated,
               self.take toIdx ++ other.drop fromIdx
                 ++ self.drop (toIdx + (other.length - fromIdx)),
               st2)) :=
  ⟨mutate_splice_skipped_iff self other st,
   fun h1 h2 => mutate_splice_mutated_eq self other st h1 h2⟩

theorem c3_splice_contract_witness :
    (([65, 66, 67] : Bytes) ≠ [] ∧ ([88] : Bytes) ≠ [])
    ∧ ∃ toIdx fromIdx st2,
        toIdx < ([65, 66, 67] : Bytes).length
        ∧ fromIdx < ([88] : Bytes).length
        ∧ mutate_splice [65, 66, 67] [88] ⟨[0, 0], 0⟩
            = (.mutated,
               ([65, 66, 67] : Bytes).take toIdx ++ ([88] : Bytes).drop fromIdx
                 ++ ([65, 66, 67] : Bytes).drop
                     (toIdx + (([88] : Bytes).length - fromIdx)),
               st2) :=
  ⟨⟨by decide, by decide⟩,
   (c3_splice_contract [65, 66, 67] [88] ⟨[0, 0], 0⟩).2 (by decide) (by decide)⟩

/-- Claim C4 counterexample: with `max_size = 1` the bytes crossover-insert
on `self = [0]`, `other = [1, 2, 3]` still returns `Mutated` and grows the
packet to 4 bytes — it neither clips `len` to respect `max_size` nor returns
`Skipped`. -/
theorem c4_counterexample :
    (mutate_crossover_insert [0] [1, 2, 3] ⟨[0, 0, 2], 1⟩).1 = .mutated
    ∧ MState.max_size ⟨[0, 0, 2], 1⟩
        < (mutate_crossover_insert [0] [1, 2, 3] ⟨[0, 0, 2], 1⟩).2.1.length :=
  ⟨by decide, by decide⟩

/-- Claim C4 (amended): the bytes splice and crossover-insert never consult
`max_size` — outcome and resulting bytes are identical for every `max_size`
value — and growth is bounded only by the operand sizes: a `Mutated`
crossover-insert yields a length in `(|self|, |self| + |other|]` and a
`Mutated` splice a length in `[|self|, |self| + |other|]`. -/
theorem c4_growth_unclipped (self other : Bytes) (st : MState) :
    ((mutate_crossover_insert self other st).1 = .mutated →
        self.length < (mutate_crossover_insert self other st).2.1.length
        ∧ (mutate_crossover_insert self other st).2.1.length
            ≤ self.length + other.length)
    ∧ ((mutate_splice self other st).1 = .mutated →
        self.length ≤ (mutate_splice self other st).2.1.length
        ∧ (mutate_splice self other st).2.1.length
            ≤ self.length + other.length)
    ∧ (∀ n, (mutate_crossover_insert self other ⟨st.rand, n⟩).1
            = (mutate_crossover_insert self other st).1
        ∧ (mutate_crossover_insert self other ⟨st.rand, n⟩).2.1
            = (mutate_crossover_insert self other st).2.1)
    ∧ (∀ n, (mutate_splice self other ⟨st.rand, n⟩).1
            = (mutate_splice self other st).1
        ∧ (mutate_splice self other ⟨st.rand, n⟩).2.1
            = (mutate_splice self other st).2.1) := by
  refine ⟨?_, ?_, ?_, ?_⟩
  · intro hm
    have h1 : self ≠ [] := by
      intro he
      have := (mutate_crossover_insert_skipped_iff self other st).2 (Or.inl he)
      rw [this] at hm
      exact absurd hm (by decide)
    have h2 : other ≠ [] := by
      intro he
      have := (mutate_crossover_insert_skipped_iff self other st).2 (Or.inr he)
      rw [this] at hm
      exact absurd hm (by decide)
    obtain ⟨fromIdx, toIdx, len, st2, hf, ht, hl1, hl2, heq⟩ :=
      mutate_crossover_insert_mutated_eq self other st h1 h2
    rw [heq]
    have hlens : (self.take toIdx ++ (other.drop fromIdx).take len
        ++ self.drop toIdx).length
        = toIdx + len + (self.length - toIdx) := by
      rw [List.length_append, List.length_append, List.length_take,
        List.length_take, List.length_drop, List.length_drop]
      omega
    rw [hlens]
    omega
  · intro hm
    have h1 : self ≠ [] := by
      intro he
      have := (mutate_splice_skipped_iff self other st).2 (Or.inl he)
      rw [this] at hm
      exact absurd hm (by decide)
    have h2 : other ≠ [] := by
      intro he
      have := (mutate_splice_skipped_iff self other st).2 (Or.inr he)
      rw [this] at hm
      exact absurd hm (by decide)
    obtain ⟨toIdx, fromIdx, st2, ht, hf, heq⟩ :=
      mutate_splice_mutated_eq self other st h1 h2
    rw [heq]
    have hlens : (self.take toIdx ++ other.drop fromIdx
        ++ self.drop (toIdx + (other.length - fromIdx))).length
        = toIdx + (other.length - fromIdx)
          + (self.length - (toIdx + (other.length - fromIdx))) := by
      rw [List.length_append, List.length_append, List.length_take,
        List.length_drop, List.length_drop]
      omega
    rw [hlens]
    omega
  · intro n
    obtain ⟨r, m⟩ := st
    exact mutate_crossover_insert_max_independent self other r n m
  · intro n
    obtain ⟨r, m⟩ := st
    exact mutate_splice_max_independent self other r n m

theorem c4_growth_unclipped_witness :
    (mutate_crossover_insert [0] [1, 2, 3] ⟨[0, 0, 2], 7⟩).1 = .mutated
    ∧ ([0] : Bytes).length
        < (mutate_crossover_insert [0] [1, 2, 3] ⟨[0, 0, 2], 7⟩).2.1.length
    ∧ (mutate_crossover_insert [0] [1, 2, 3] ⟨[0, 0, 2], 7⟩).2.1.length
        ≤ ([0] : Bytes).length + ([1, 2, 3] : Bytes).length :=
  ⟨by decide,
   ((c4_growth_unclipped [0] [1, 2, 3] ⟨[0, 0, 2], 7⟩).1 (by decide)).1,
   ((c4_growth_unclipped [0] [1, 2, 3] ⟨[0, 0, 2], 7⟩).1 (by decide)).2⟩

theorem set_getD_eq {α : Type} (d : α) :
    ∀ (l : List α) (k : ℕ), l.set k (l.getD k d) = l := by
  intro l
  induction l with
  | nil => intro k; rfl
  | cons a t ih =>
    intro k
    rcases k with _ | k
    · simp
    · simp only [List.set_cons_succ, List.getD_cons_succ]
      rw [ih k]

theorem insertIdx_eraseIdx_getD {α : Type} (d : α) :
    ∀ (l : List α) (k : ℕ), k < l.length →
      (l.eraseIdx k).insertIdx k (l.getD k d) = l := by
  intro l
  induction l with
  | nil => intro k h; exact absurd h (by simp)
  | cons a t ih =>
    intro k h
    rcases k with _ | k
    · simp [List.eraseIdx, List.insertIdx_zero]
    · rw [List.eraseIdx_cons_succ, List.getD_cons_succ, List.insertIdx_succ_cons,
        ih k (by simpa using h)]

theorem havocLoop_mutated_ne {P E : Type} (mp : HavocFn P E) (nMut packet : ℕ) :
    ∀ (iters : ℕ) (input : List P) (st : MState),
      (havocLoop mp nMut packet iters .mutated input st).1 ≠ .ok .skipped := by
  intro iters
  induction iters with
  | zero => intro input st; simp [havocLoop]
  | succ n ih =>
    intro input st
    simp only [havocLoop]
    rcases hr : (mp packet (st.below nMut).1 input (st.below nMut).2).1 with e | oc
    · simp
    · dsimp only
      rw [ite_self]
      exact ih _ _

theorem havocLoop_skipped_unchanged {P E : Type} (mp : HavocFn P E)
    (hmp : ∀ pk mu inp st2,
      (mp pk mu inp st2).1 = .ok .skipped → (mp pk mu inp st2).2.1 = inp)
    (nMut packet : ℕ) :
    ∀ (iters : ℕ) (input : List P) (st : MState),
      (havocLoop mp nMut packet iters .skipped input st).1 = .ok .skipped →
      (havocLoop mp nMut packet iters .skipped input st).2.1 = input := by
  intro iters
  induction iters with
  | zero => intro input st _; rfl
  | succ n ih =>
    intro input st h
    simp only [havocLoop] at h ⊢
    rcases hr : (mp packet (st.below nMut).1 input (st.below nMut).2).1 with e | oc
    · rw [hr] at h
      exact absurd h (by simp)
    · rw [hr] at h
      rcases oc with _ | _
      · exact absurd h (havocLoop_mutated_ne mp nMut packet n _ _)
      · have hun : (mp packet (st.below nMut).1 input (st.below nMut).2).2.1 = input :=
          hmp _ _ _ _ hr
        exact (ih _ _ h).trans hun

/-- Claim C5: for every packet-sequence mutator (Reorder, Delete, Duplicate,
Splice, CrossoverInsert, CrossoverReplace, Havoc) and every PRNG state, a
`Skipped` outcome leaves the sequence byte-for-byte unchanged; in particular
the Splice mutator re-inserts the removed packet at `i + 1` when the
packet-level splice skipped.  The capability hypotheses state that the
packet-level operations (`mutate_splice` etc., e.g. their canonical
`BytesInput` implementations) leave the packet unchanged on `Skipped`. -/
theorem c5_skipped_unchanged {P E : Type} [Inhabited P]
    (ms mci mcr : PacketFn P E) (mp : HavocFn P E)
    (hms : ∀ a b st2, (ms a b st2).1 = .ok .skipped → (ms a b st2).2.1 = a)
    (hci : ∀ a b st2, (mci a b st2).1 = .ok .skipped → (mci a b st2).2.1 = a)
    (hcr : ∀ a b st2, (mcr a b st2).1 = .ok .skipped → (mcr a b st2).2.1 = a)
    (hmp : ∀ pk mu inp st2,
      (mp pk mu inp st2).1 = .ok .skipped → (mp pk mu inp st2).2.1 = inp)
    (mS mD : ℕ) (um : PacketDuplicateMutator) (nMut : ℕ)
    (input : List P) (st : MState) :
    ((pktReorderMutate (E := E) input st).1 = .ok .skipped →
        (pktReorderMutate (E := E) input st).2.1 = input)
    ∧ ((pktDeleteMutate (E := E) (PacketDeleteMutator.new mD) input st).1 = .ok .skipped →
        (pktDeleteMutate (E := E) (PacketDeleteMutator.new mD) input st).2.1 = input)
    ∧ ((pktDuplicateMutate (E := E) um input st).1 = .ok .skipped →
        (pktDuplicateMutate (E := E) um input st).2.1 = input)
    ∧ ((pktSpliceMutate ms (PacketSpliceMutator.new mS) input st).1 = .ok .skipped →
        (pktSpliceMutate ms (PacketSpliceMutator.new mS) input st).2.1 = input)
    ∧ ((pktCrossoverInsertMutate mci input st).1 = .ok .skipped →
        (pktCrossoverInsertMutate mci input st).2.1 = input)
    ∧ ((pktCrossoverReplaceMutate mcr input st).1 = .ok .skipped →
        (pktCrossoverReplaceMutate mcr input st).2.1 = input)
    ∧ ((pktHavocMutate mp nMut input st).1 = .ok .skipped →
        (pktHavocMutate mp nMut input st).2.1 = input) := by
  refine ⟨?_, ?_, ?_, ?_, ?_, ?_, ?_⟩
  · -- Reorder
    intro h
    by_cases h1 : input.length ≤ 1
    · simp only [pktReorderMutate, if_pos h1]
    · by_cases h2 : (st.below input.length).1
          = ((st.below input.length).2.below input.length).1
      · simp only [pktReorderMutate, if_neg h1, if_pos h2]
      · simp only [pktReorderMutate, if_neg h1, if_neg h2] at h
        exact absurd h (by simp)
  · -- Delete
    intro h
    by_cases h1 : input.length ≤ (PacketDeleteMutator.new mD).min_packets
    · simp only [pktDeleteMutate, if_pos h1]
    · simp only [pktDeleteMutate, if_neg h1] at h
      exact absurd h (by simp)
  · -- Duplicate
    intro h
    by_cases h1 : um.max_packets ≤ input.length
    · simp only [pktDuplicateMutate, if_pos h1]
    · by_cases h2 : (st.below input.length).1
          = ((st.below input.length).2.below (input.length + 1)).1
      · simp only [pktDuplicateMutate, if_neg h1, if_pos h2]
      · simp only [pktDuplicateMutate, if_neg h1, if_neg h2] at h
        exact absurd h (by simp)
  · -- Splice
    intro h
    by_cases h1 : input.length ≤ (PacketSpliceMutator.new mS).min_packets
    · simp only [pktSpliceMutate, if_pos h1]
    · have hmin : 1 ≤ (PacketSpliceMutator.new mS).min_packets := le_max_left 1 mS
      have hlen2 : 2 ≤ input.length := by omega
      have hp : (st.below (input.length - 1)).1 < input.length - 1 :=
        below_lt st (by omega)
      simp only [pktSpliceMutate, if_neg h1] at h ⊢
      split at h
      all_goals rename_i heq
      · dsimp only
        rw [hms _ _ _ heq, set_getD_eq, insertIdx_eraseIdx_getD]
        omega
      · exact absurd h (by simp)
      · exact absurd h (by simp)
  · -- CrossoverInsert
    intro h
    by_cases h1 : input.length ≤ 1
    · simp only [pktCrossoverInsertMutate, if_pos h1]
    · by_cases h2 : (st.below input.length).1
          = ((st.below input.length).2.below input.length).1
      · simp only [pktCrossoverInsertMutate, if_neg h1, if_pos h2]
      · simp only [pktCrossoverInsertMutate, if_neg h1, if_neg h2] at h ⊢
        rw [hci _ _ _ h, set_getD_eq]
  · -- CrossoverReplace
    intro h
    by_cases h1 : input.length ≤ 1
    · simp only [pktCrossoverReplaceMutate, if_pos h1]
    · by_cases h2 : (st.below input.length).1
          = ((st.below input.length).2.below input.length).1
      · simp only [pktCrossoverReplaceMutate, if_neg h1, if_pos h2]
      · simp only [pktCrossoverReplaceMutate, if_neg h1, if_neg h2] at h ⊢
        rw [hcr _ _ _ h, set_getD_eq]
  · -- Havoc
    intro h
    by_cases h1 : input.length = 0
    · simp only [pktHavocMutate, if_pos h1]
    · simp only [pktHavocMutate, if_neg h1] at h ⊢
      exact havocLoop_skipped_unchanged mp hmp nMut _ _ input _ h

theorem c5_skipped_unchanged_witness :
    (pktReorderMutate (P := ℕ) (E := Unit) [5] ⟨[], 0⟩).2.1 = [5] :=
  (c5_skipped_unchanged
    (fun a _ s => (.ok .skipped, a, s)) (fun a _ s => (.ok .skipped, a, s))
    (fun a _ s => (.ok .skipped, a, s)) (fun _ _ inp s => (.ok .skipped, inp, s))
    (fun _ _ _ _ => rfl) (fun _ _ _ _ => rfl) (fun _ _ _ _ => rfl)
    (fun _ _ _ _ _ => rfl)
    0 0 ⟨4⟩ 3 [5] ⟨[], 0⟩).1 rfl

/-- Claim C7: Reorder always preserves the sequence length; a `Mutated`
Delete shrinks it by exactly one; a `Mutated` Duplicate grows it by exactly
one. -/
theorem c7_structural_lengths {P E : Type} [Inhabited P]
    (dm : PacketDeleteMutator) (um : PacketDuplicateMutator)
    (input : List P) (st : MState) :
    ((pktReorderMutate (E := E) input st).2.1.length = input.length)
    ∧ ((pktDeleteMutate (E := E) dm input st).1 = .ok .mutated →
        (pktDeleteMutate (E := E) dm input st).2.1.length + 1 = input.length)
    ∧ ((pktDuplicateMutate (E := E) um input st).1 = .ok .mutated →
        (pktDuplicateMutate (E := E) um input st).2.1.length = input.length + 1) := by
  refine ⟨?_, ?_, ?_⟩
  · -- Reorder
    by_cases h1 : input.length ≤ 1
    · simp only [pktReorderMutate, if_pos h1]
    · by_cases h2 : (st.below input.length).1
          = ((st.below input.length).2.below input.length).1
      · simp only [pktReorderMutate, if_neg h1, if_pos h2]
      · simp only [pktReorderMutate, if_neg h1, if_neg h2]
        rw [List.length_set, List.length_set]
  · -- Delete
    intro h
    by_cases h1 : input.length ≤ dm.min_packets
    · simp only [pktDeleteMutate, if_pos h1] at h
      exact absurd h (by simp)
    · have hpos : 0 < input.length := by omega
      have hidx : (st.below input.length).1 < input.length := below_lt st hpos
      simp only [pktDeleteMutate, if_neg h1]
      exact List.length_eraseIdx_add_one hidx
  · -- Duplicate
    intro h
    by_cases h1 : um.max_packets ≤ input.length
    · simp only [pktDuplicateMutate, if_pos h1] at h
      exact absurd h (by simp)
    · by_cases h2 : (st.below input.length).1
          = ((st.below input.length).2.below (input.length + 1)).1
      · simp only [pktDuplicateMutate, if_neg h1, if_pos h2] at h
        exact absurd h (by simp)
      · have hto : ((st.below input.length).2.below (input.length + 1)).1
            ≤ input.length := by
          have h3 : ((st.below input.length).2.below (input.length + 1)).1
              < input.length + 1 := below_lt _ (by omega)
          omega
        simp only [pktDuplicateMutate, if_neg h1, if_neg h2]
        exact List.length_insertIdx _ _ hto

theorem c7_structural_lengths_witness :
    (pktReorderMutate (P := ℕ) (E := Unit) [1, 2] ⟨[0, 1], 0⟩).2.1.length = 2
    ∧ (pktDeleteMutate (P := ℕ) (E := Unit)
        (PacketDeleteMutator.new 1) [1, 2] ⟨[0], 0⟩).2.1.length + 1 = 2
    ∧ (pktDuplicateMutate (P := ℕ) (E := Unit) ⟨5⟩ [1, 2] ⟨[0, 1], 0⟩).2.1.length = 3 :=
  ⟨(c7_structural_lengths (PacketDeleteMutator.new 1) ⟨5⟩ [1, 2] ⟨[0, 1], 0⟩).1,
   (c7_structural_lengths (PacketDeleteMutator.new 1) ⟨5⟩ [1, 2] ⟨[0], 0⟩).2.1 rfl,
   (c7_structural_lengths (PacketDeleteMutator.new 1) ⟨5⟩ [1, 2] ⟨[0, 1], 0⟩).2.2 rfl⟩

theorem schedMutate_no_skip {P E : Type} (muts : List (SeqMutFn P E)) :
    ∀ (fuel : ℕ) (input : List P) (st : MState) r,
      schedMutate muts fuel input st = some r → r.1 ≠ .ok .skipped := by
  intro fuel
  induction fuel with
  | zero =>
    intro input st r h
    exact absurd h (by simp [schedMutate])
  | succ n ih =>
    intro input st r h
    simp only [schedMutate] at h
    split at h
    · exact ih _ _ _ h
    · rename_i heq
      injection h with h
      subst h
      intro hc
      exact heq hc

/-- Claim C6: the scheduler draws an index `k` uniformly below `|mutators|`,
runs exactly mutator `k`, retries with a fresh draw whenever it skipped, and
any value it returns is `Mutated` or an error — never `Skipped`. -/
theorem c6_scheduler_contract {P E : Type} (muts : List (SeqMutFn P E))
    (fuel : ℕ) (input : List P) (st : MState) :
    (∀ r, schedMutate muts fuel input st = some r →
        r.1 = .ok .mutated ∨ ∃ e, r.1 = .error e)
    ∧ (0 < muts.length → (st.below muts.length).1 < muts.length)
    ∧ (schedMutate muts (fuel + 1) input st
        = match ((muts.getD (st.below muts.length).1
              (fun inp s => (.ok .skipped, inp, s))) input (st.below muts.length).2).1 with
          | .ok .skipped =>
            schedMutate muts fuel
              ((muts.getD (st.below muts.length).1
                (fun inp s => (.ok .skipped, inp, s))) input (st.below muts.length).2).2.1
              ((muts.getD (st.below muts.length).1
                (fun inp s => (.ok .skipped, inp, s))) input (st.below muts.length).2).2.2
          | _ =>
            some ((muts.getD (st.below muts.length).1
              (fun inp s => (.ok .skipped, inp, s))) input (st.below muts.length).2)) := by
  refine ⟨?_, fun h => below_lt st h, rfl⟩
  intro r h
  have hne := schedMutate_no_skip muts fuel input st r h
  rcases hr : r.1 with e | mr
  · exact Or.inr ⟨e, rfl⟩
  · rcases mr with _ | _
    · exact Or.inl rfl
    · exact absurd hr hne

theorem c6_scheduler_contract_witness :
    (Except.ok MutationResult.mutated : Except Unit MutationResult) = .ok .mutated
      ∨ ∃ e : Unit,
          (Except.ok MutationResult.mutated : Except Unit MutationResult) = .error e :=
  (c6_scheduler_contract
      [fun (inp : List ℕ) s => (.ok .mutated, inp, s)] 1 [3] ⟨[], 0⟩).1
    (.ok .mutated, [3], ⟨[], 0⟩) rfl

/-- Claim C10: when the packet-level splice errors, `PacketSpliceMutator`
propagates the error without re-inserting the removed packet: the sequence
comes back exactly one packet shorter, with the partially mutated packet left
in place (restoration happens only on the `Skipped` path). -/
theorem c10_splice_error_path {P E : Type} [Inhabited P] (ms : PacketFn P E)
    (m : ℕ) (input : List P) (st : MState) (e : E) (out : List P) (st2 : MState)
    (h : pktSpliceMutate ms (PacketSpliceMutator.new m) input st
        = (.error e, out, st2)) :
    out.length + 1 = input.length
    ∧ ∃ packet st1,
        packet + 1 < input.length
        ∧ (ms ((input.eraseIdx (packet + 1)).getD packet default)
            (input.getD (packet + 1) default) st1).1 = .error e
        ∧ out = (input.eraseIdx (packet + 1)).set packet
            ((ms ((input.eraseIdx (packet + 1)).getD packet default)
              (input.getD (packet + 1) default) st1).2.1) := by
  by_cases h1 : input.length ≤ (PacketSpliceMutator.new m).min_packets
  · simp only [pktSpliceMutate, if_pos h1] at h
    exact absurd h (by simp)
  · have hmin : 1 ≤ (PacketSpliceMutator.new m).min_packets := le_max_left 1 m
    have hlen2 : 2 ≤ input.length := by omega
    have hp : (st.below (input.length - 1)).1 < input.length - 1 :=
      below_lt st (by omega)
    simp only [pktSpliceMutate, if_neg h1] at h
    split at h
    · exact absurd h (by simp)
    · exact absurd h (by simp)
    · rename_i e2 heq
      rw [Prod.mk.injEq, Prod.mk.injEq] at h
      obtain ⟨hA, hB, hC⟩ := h
      injection hA with hA
      subst hA
      refine ⟨?_, (st.below (input.length - 1)).1, (st.below (input.length - 1)).2,
        by omega, heq, hB.symm⟩
      rw [← hB, List.length_set]
      have hl := List.length_eraseIdx_add_one
        (show (st.below (input.length - 1)).1 + 1 < input.length by omega)
      omega

theorem c10_splice_error_path_witness :
    ((pktSpliceMutate (fun (a _ : ℕ) s => ((.error () : Except Unit MutationResult), a, s))
        (PacketSpliceMutator.new 1) [7, 8] ⟨[0], 0⟩).2.1).length + 1
      = ([7, 8] : List ℕ).length :=
  (c10_splice_error_path (fun (a _ : ℕ) s => ((.error () : Except Unit MutationResult), a, s))
    1 [7, 8] ⟨[0], 0⟩ () [7] ⟨[], 0⟩ rfl).1

mutual

theorem loadEntry_no_panic (ent : FsEntry)
    (h : entryHasMalformedPcap ent = false) :
    ∀ m, loadEntry ent ≠ .panicked m := by
  intro m
  rcases ent with ⟨ext, size, metaOk, malformed, parsed, evald⟩ | ⟨metaOk, entries⟩
  · simp only [loadEntry]
    by_cases h1 : metaOk = false
    · simp [h1]
    · rw [if_neg h1]
      by_cases h2 : 0 < size
      · rw [if_pos h2]
        by_cases h3 : ext = "pcapng" ∨ ext = "pcap"
        · rw [if_pos h3]
          have hm : malformed = false := by
            simp only [entryHasMalformedPcap, Bool.and_eq_false_iff] at h
            rcases h with h | h
            · rcases h with h | h
              · rcases h with h | h
                · exact absurd h h1
                · simp only [decide_eq_false_iff_not] at h
                  exact absurd h2 h
              · simp only [Bool.or_eq_false_iff, decide_eq_false_iff_not] at h
                rcases h3 with h3 | h3
                · exact absurd h3 h.1
                · exact absurd h3 h.2
            · exact h
          rw [hm, if_neg (by simp)]
          rcases parsed with e | v
          · simp
          · rcases evald with e | v <;> simp
        · rw [if_neg h3]
          simp
      · rw [if_neg h2]
        simp
  · simp only [loadEntry]
    by_cases h1 : metaOk = false
    · simp [h1]
    · rw [if_neg h1]
      have hl : listHasMalformedPcap entries = false := by
        simp only [entryHasMalformedPcap, Bool.and_eq_false_iff] at h
        rcases h with h | h
        · exact absurd h h1
        · exact h
      exact loadList_no_panic entries hl m

theorem loadList_no_panic (l : List FsEntry)
    (h : listHasMalformedPcap l = false) :
    ∀ m, loadList l ≠ .panicked m := by
  intro m
  rcases l with _ | ⟨e, rest⟩
  · simp [loadList]
  · have hsplit : entryHasMalformedPcap e = false
        ∧ listHasMalformedPcap rest = false := by
      simpa [listHasMalformedPcap, Bool.or_eq_false_iff] using h
    simp only [loadList]
    rcases he : loadEntry e with _ | e2 | m2
    · exact loadList_no_panic rest hsplit.2 m
    · simp
    · exact absurd he (loadEntry_no_panic e hsplit.1 m2)

end

mutual

theorem loadEntry_error_mem (ent : FsEntry) (e : ℕ)
    (h : loadEntry ent = .error e) : e ∈ entryErrors ent := by
  rcases ent with ⟨ext, size, metaOk, malformed, parsed, evald⟩ | ⟨metaOk, entries⟩
  · simp only [loadEntry] at h
    by_cases h1 : metaOk = false
    · rw [if_pos h1] at h
      exact absurd h (by simp)
    · rw [if_neg h1] at h
      by_cases h2 : 0 < size
      · rw [if_pos h2] at h
        by_cases h3 : ext = "pcapng" ∨ ext = "pcap"
        · rw [if_pos h3] at h
          by_cases h4 : malformed = true
          · rw [if_pos h4] at h
            exact absurd h (by simp)
          · rw [if_neg h4] at h
            have hcond : metaOk = true ∧ 0 < size ∧ (ext = "pcapng" ∨ ext = "pcap")
                ∧ malformed = false := by
              refine ⟨by simpa using h1, h2, h3, by simpa using h4⟩
            simp only [entryErrors, if_pos hcond]
            rcases parsed with e2 | v
            · have : e2 = e := by
                injection h
              simp [this]
            · rcases evald with e2 | v
              · have : e2 = e := by
                  injection h
                simp [this]
              · exact absurd h (by simp)
        · rw [if_neg h3] at h
          exact absurd h (by simp)
      · rw [if_neg h2] at h
        exact absurd h (by simp)
  · simp only [loadEntry] at h
    by_cases h1 : metaOk = false
    · rw [if_pos h1] at h
      exact absurd h (by simp)
    · rw [if_neg h1] at h
      have hmem := loadList_error_mem entries e h
      simp only [entryErrors, if_pos (show metaOk = true by simpa using h1)]
      exact hmem

theorem loadList_error_mem (l : List FsEntry) (e : ℕ)
    (h : loadList l = .error e) : e ∈ listErrors l := by
  rcases l with _ | ⟨ent, rest⟩
  · exact absurd h (by simp [loadList])
  · simp only [loadList] at h
    simp only [listErrors, List.mem_append]
    rcases he : loadEntry ent with _ | e2 | m2
    · rw [he] at h
      exact Or.inr (loadList_error_mem rest e h)
    · rw [he] at h
      have : e2 = e := by injection h
      subst this
      exact Or.inl (loadEntry_error_mem ent e2 he)
    · rw [he] at h
      exact absurd h (by simp)

end

/-- Claim C9 counterexample: a directory with one readable, non-empty,
malformed `.pcap` file makes `load_pcaps` panic (`expect("invalid pcap
format")`) instead of returning an `Err` to the caller. -/
theorem c9_counterexample :
    loadList [.file "pcap" 1 true true (.ok 0) (.ok 0)]
      = .panicked "invalid pcap format" := rfl

/-- Claim C9 (amended): `load_pcaps` surfaces the errors of `from_pcap` and
`evaluate_input` to the caller unchanged as an `Err` result, and no panic can
arise from a tree without a malformed pcap candidate; a malformed `.pcap` or
`.pcapng` file, however, panics via `expect("invalid pcap format")` instead
of yielding an `Err`. -/
theorem c9_loader_error_propagation (entries : List FsEntry) :
    (listHasMalformedPcap entries = false →
        ∀ m, loadList entries ≠ .panicked m)
    ∧ (∀ e, loadList entries = .error e → e ∈ listErrors entries) :=
  ⟨fun h m => loadList_no_panic entries h m,
   fun e h => loadList_error_mem entries e h⟩

theorem c9_loader_error_propagation_witness :
    (loadList [.file "pcap" 1 true false (.error 5) (.ok 0),
        .dir true [.file "txt" 3 true true (.ok 0) (.ok 0)]]
      ≠ .panicked "invalid pcap format")
    ∧ 5 ∈ listErrors [.file "pcap" 1 true false (.error 5) (.ok 0),
        .dir true [.file "txt" 3 true true (.ok 0) (.ok 0)]] :=
  ⟨(c9_loader_error_propagation _).1 (by decide) "invalid pcap format",
   (c9_loader_error_propagation _).2 5 (by decide)⟩


end Butterfly
